import Mathlib

/-!
Verification of the welshman client engine against its specification.

The development shallowly embeds the code of `src/packages/app/src/core.ts`
(the subscription shortcut and `load`), `src/packages/feeds/compiler.ts`
(the feed compiler) and `src/unnamed/part_004` (relay URL utilities).
Components the specification describes but whose code is not part of the
sources (`Repository`, `Router`, and small `@welshman/util` / `@welshman/lib`
helpers) are modelled from the specification; each such definition says so
in its doc comment.
-/

namespace Welshman

/-- A tag is an ordered sequence of strings (spec §3). -/
abbrev Tag := List String

/-- Event: `{id, pubkey, created_at, kind, tags, content}` (spec §3).
The signature is opaque trusted input and plays no role in any claim, so it
is omitted from the embedding. -/
structure Event where
  id : String
  pubkey : String
  created_at : Int
  kind : Nat
  tags : List Tag
  content : String := ""
deriving Repr, DecidableEq

/-- Filter: a conjunction of optional constraints (spec §3).  Per-tag-key
sets (`#e`, `#p`, ...) are stored in `tagFilters` keyed by the tag name with
the `#` prefix of the JSON key dropped (`("t", vs)` stands for `{"#t": vs}`). -/
structure Filter where
  ids : Option (List String) := none
  authors : Option (List String) := none
  kinds : Option (List Nat) := none
  tagFilters : List (String × List String) := []
  since : Option Int := none
  until_ : Option Int := none
  limit : Option Nat := none
deriving Repr, DecidableEq

/-- The values of all tags of `e` whose first element is `key`
(a tag shorter than two elements has no value). -/
def eventTagValues (e : Event) (key : String) : List String :=
  e.tags.filterMap fun t =>
    match t with
    | k :: v :: _ => if k = key then some v else none
    | _ => none

/-- An event matches a filter iff every present constraint matches
(spec §3); `since`/`until` are inclusive timestamp bounds. -/
def matchFilter (f : Filter) (e : Event) : Bool :=
  (match f.ids with | some ids => ids.contains e.id | none => true) &&
  (match f.authors with | some as => as.contains e.pubkey | none => true) &&
  (match f.kinds with | some ks => ks.contains e.kind | none => true) &&
  (f.tagFilters.all fun kv => (eventTagValues e kv.1).any fun v => kv.2.contains v) &&
  (match f.since with | some s => decide (s ≤ e.created_at) | none => true) &&
  (match f.until_ with | some u => decide (e.created_at ≤ u) | none => true)

/-! ## Repository

Modelled from the spec: the Repository implementation lives in
`@welshman/util` and is not among the sources; §3 ("Repository invariants")
and §4.4 describe it.  Kind ranges and the deletion kind follow the
externally specified protocol the spec names (replaceable kinds 0, 3 and
[10000, 20000); addressable kinds [30000, 40000); deletion kind 5). -/

/-- Modelled from the spec: protocol kind of deletion events. -/
def DELETION_KIND : Nat := 5

/-- Modelled from the spec: replaceable kind range (per-pubkey singleton). -/
def isReplaceableKind (k : Nat) : Bool :=
  k == 0 || k == 3 || (decide (10000 ≤ k) && decide (k < 20000))

/-- Modelled from the spec: addressable kind range
(per-pubkey+kind+distinguishing-tag singleton). -/
def isAddressableKind (k : Nat) : Bool :=
  decide (30000 ≤ k) && decide (k < 40000)

/-- The distinguishing (`d`) tag value of an event, defaulting to `""`. -/
def eventDTag (e : Event) : String :=
  ((eventTagValues e "d").head?).getD ""

/-- Modelled from the spec: the replaceable identity key — per-pubkey for
replaceable kinds, per-pubkey+kind+distinguishing-tag for addressable
kinds, and none for regular events. -/
def identityKey (e : Event) : Option (Nat × String × String) :=
  if isReplaceableKind e.kind then some (e.kind, e.pubkey, "")
  else if isAddressableKind e.kind then some (e.kind, e.pubkey, eventDTag e)
  else none

/-- The address coordinate `kind:pubkey:dtag` used by deletion `a` tags. -/
def eventAddress (e : Event) : String :=
  toString e.kind ++ ":" ++ e.pubkey ++ ":" ++ eventDTag e

/-- Modelled from the spec: `new` supersedes `old` iff it has the greater
`created_at`, ties broken toward the lexicographically greatest `id`
(spec §3, Repository invariants). -/
def replaces (new old : Event) : Bool :=
  decide (old.created_at < new.created_at) ||
    (old.created_at == new.created_at && decide (old.id < new.id))

/-- Modelled from the spec: the Repository state — stored events (at most
one per id), plus tombstones by id and by address coordinate.  Address
tombstones carry the deletion's `created_at` so that only events at or
before the deletion count as deleted. -/
structure Repository where
  events : List Event := []
  deletedIds : List String := []
  deletedAddrs : List (String × Int) := []
deriving Repr, DecidableEq

/-- Modelled from the spec: a deletion event referencing an id (`e` tag) or
an addressable identity (`a` tag) marks the target(s) tombstoned. -/
def applyDeletion (repo : Repository) (e : Event) : Repository :=
  if e.kind == DELETION_KIND then
    { repo with
      deletedIds := repo.deletedIds ++ eventTagValues e "e",
      deletedAddrs :=
        repo.deletedAddrs ++ (eventTagValues e "a").map fun a => (a, e.created_at) }
  else repo

/-- Modelled from the spec (§4.4): `publish` applies the
replaceable/addressable/deletion rules — duplicates by id are no-ops, a
stale candidate for an occupied identity key is rejected (not stored), a
superseding candidate evicts the old holder, and an accepted deletion
records its tombstones while the event itself is stored. -/
def Repository.publish (repo : Repository) (e : Event) : Repository :=
  if repo.events.any fun x => x.id == e.id then repo
  else
    match identityKey e with
    | some key =>
      match repo.events.find? fun x => identityKey x == some key with
      | some old =>
        if replaces e old then
          applyDeletion
            { repo with events := e :: repo.events.filter fun x => !(identityKey x == some key) } e
        else repo
      | none => applyDeletion { repo with events := e :: repo.events } e
    | none => applyDeletion { repo with events := e :: repo.events } e

/-- O(1) tombstone lookup by id (spec §4.4 `isDeleted`). -/
def Repository.isDeletedId (repo : Repository) (id : String) : Bool :=
  repo.deletedIds.contains id

/-- Tombstone lookup by address: deleted iff some `a` tombstone for the
event's address is at least as recent as the event. -/
def Repository.isDeletedByAddress (repo : Repository) (e : Event) : Bool :=
  repo.deletedAddrs.any fun at_ => at_.1 == eventAddress e && decide (e.created_at ≤ at_.2)

/-- An event is tombstoned if deleted by id or by address. -/
def Repository.isDeleted (repo : Repository) (e : Event) : Bool :=
  repo.isDeletedId e.id || repo.isDeletedByAddress e

/-- Insert an event into a most-recent-`created_at`-first list. -/
def insertByRecency (e : Event) : List Event → List Event
  | [] => [e]
  | x :: xs => if replaces e x then e :: x :: xs else x :: insertByRecency e xs

/-- Sort events most-recent-`created_at`-first (spec §4.4). -/
def sortByRecency (l : List Event) : List Event :=
  l.foldr insertByRecency []

/-- Deduplicate a list of events by id, keeping first occurrences;
`seen` accumulates the ids already emitted. -/
def dedupByIdAux : List Event → List String → List Event
  | [], _ => []
  | e :: es, seen =>
    if seen.contains e.id then dedupByIdAux es seen
    else e :: dedupByIdAux es (e.id :: seen)

/-- Deduplicate a list of events by id, keeping first occurrences. -/
def dedupById (l : List Event) : List Event :=
  dedupByIdAux l []

/-- The non-tombstoned stored events. -/
def Repository.visible (repo : Repository) : List Event :=
  repo.events.filter fun e => !(repo.isDeleted e)

/-- Modelled from the spec (§4.4): `query` returns all non-tombstoned
stored events matching any filter, most-recent-`created_at`-first, honoring
each filter's own `limit` independently before merging, then deduplicating
by id. -/
def Repository.query (repo : Repository) (filters : List Filter) : List Event :=
  dedupById <| filters.flatMap fun f =>
    let matching := (sortByRecency repo.visible).filter (matchFilter f)
    match f.limit with
    | some n => matching.take n
    | none => matching

/-- Full-state export (spec §4.4 `dump`). -/
def Repository.dump (repo : Repository) : List Event :=
  repo.events

/-- The empty repository. -/
def Repository.empty : Repository := {}

/-! ## App core (`src/packages/app/src/core.ts`)

The subscription shortcut and `load`.  The `@welshman/net` machinery behind
`baseSubscribe` is external to these claims; what the embedding keeps is
what `subscribe` computes (the filters handed to the network and the cached
events scheduled for delivery) and how the deferred `setTimeout` task
interacts with handler registration. -/

/-- Modelled from the spec: a filter whose result cardinality is statically
bounded — an `ids` filter with N ids has cardinality N; every other filter
is unbounded (spec §4.6 step 1).  The implementation lives in
`@welshman/util` and is not among the sources. -/
def getFilterResultCardinality (f : Filter) : Option Nat :=
  f.ids.map List.length

/-- The loop body of `subscribe` (core.ts lines 43-59): iterate over the
original filters; a filter with no cardinality bound, or whose bound is not
met by `repository.query`, is pushed back onto `request.filters`; at the
first filter whose bound is met, its query results are recorded and the
loop exits via `break`, so the remaining filters are not pushed back.
Returns (the final `request.filters`, the recorded `events`). -/
def scanFilters (repo : Repository) : List Filter → List Filter × List Event
  | [] => ([], [])
  | f :: rest =>
    match getFilterResultCardinality f with
    | some n =>
      let results := repo.query [f]
      if results.length = n then ([], results)
      else
        let scanned := scanFilters repo rest
        (f :: scanned.1, scanned.2)
    | none =>
      let scanned := scanFilters repo rest
      (f :: scanned.1, scanned.2)

/-- The request type `subscribe` and `load` receive: filters plus the
optional fields of `Partial<SubscribeRequestWithHandlers>` the claims
depend on.  `none` stands for an absent property. -/
structure PartialSubscribeRequest where
  filters : List Filter
  closeOnEose : Option Bool := none
  timeout : Option Nat := none
deriving Repr, DecidableEq

/-- The cache shortcut of `subscribe` (core.ts lines 42-60): it runs only
when `request.closeOnEose` is truthy; otherwise the filters are untouched
and no cached events are collected. -/
def subscribeShortcut (repo : Repository) (req : PartialSubscribeRequest) :
    List Filter × List Event :=
  if req.closeOnEose.getD false then scanFilters repo req.filters
  else (req.filters, [])

/-- A deferred task on the JS event loop; `subscribe` queues one `setTimeout`
callback that emits the cached events on the subscription's emitter. -/
inductive AppTask where
  | emitCached (events : List Event)
deriving Repr, DecidableEq

/-- The state of the caller's interaction with `subscribe`: the queue of
deferred tasks, whether the caller has registered an event handler on the
returned subscription, and the events that handler has received. -/
structure AppRuntime where
  queue : List AppTask := []
  handlerRegistered : Bool := false
  delivered : List Event := []
deriving Repr, DecidableEq

/-- Run one deferred task: emitting an event reaches the handler only if it
is registered by the time the task runs. -/
def runAppTask (rt : AppRuntime) : AppTask → AppRuntime
  | .emitCached evs =>
    if rt.handlerRegistered then { rt with delivered := rt.delivered ++ evs } else rt

/-- The event loop runs the deferred tasks in FIFO order once the current
task has finished. -/
def drainQueue (rt : AppRuntime) : AppRuntime :=
  rt.queue.foldl runAppTask { rt with queue := [] }

/-- The synchronous part of `subscribe` (core.ts lines 38-76): compute the
shortcut, then queue the `setTimeout` callback that will emit the cached
events; returns the filters handed to the network subscription. -/
def subscribeCall (repo : Repository) (req : PartialSubscribeRequest) (rt : AppRuntime) :
    List Filter × AppRuntime :=
  let shortcut := subscribeShortcut repo req
  (shortcut.1, { rt with queue := rt.queue ++ [AppTask.emitCached shortcut.2] })

/-- The caller registers a handler on the returned subscription. -/
def registerHandler (rt : AppRuntime) : AppRuntime :=
  { rt with handlerRegistered := true }

/-- The caller scenario for `subscribe`: call it, synchronously register a
handler on the returned subscription, then let the event loop drain the
deferred queue.  Returns the network filters and the final runtime state. -/
def subscribeScenario (repo : Repository) (req : PartialSubscribeRequest) :
    List Filter × AppRuntime :=
  let call := subscribeCall repo req {}
  (call.1, drainQueue (registerHandler call.2))

/-- The request `load` hands to `subscribe` (core.ts line 80):
`{closeOnEose: true, timeout: ctx.app.requestTimeout, ...request}` — the
spread means a property present on `request` overrides the default. -/
def loadSubscribeArgs (requestTimeout : Nat) (req : PartialSubscribeRequest) :
    PartialSubscribeRequest :=
  { filters := req.filters,
    closeOnEose := some (req.closeOnEose.getD true),
    timeout := some (req.timeout.getD requestTimeout) }

/-- An emission observed on a subscription's emitter: an `Event` delivery
(cached or from the network) or the `Complete` signal. -/
inductive SubEmission where
  | event (e : Event)
  | complete
deriving Repr, DecidableEq

/-- Whether an emission is the `Complete` signal. -/
def SubEmission.isComplete : SubEmission → Bool
  | .complete => true
  | .event _ => false

/-- The promise body of `load` (core.ts lines 78-85) run against the
sequence of emissions of its subscription: every `Event` emission pushes
the event, and the first `Complete` emission resolves the promise with the
events accumulated so far; with no `Complete` the promise never resolves
(`none`). -/
def loadResult : List SubEmission → Option (List Event)
  | [] => none
  | .complete :: _ => some []
  | .event e :: rest => (loadResult rest).map fun evs => e :: evs

/-- The events emitted before the first `Complete` signal. -/
def eventsBeforeComplete (trace : List SubEmission) : List Event :=
  (trace.takeWhile fun em => !em.isComplete).filterMap fun em =>
    match em with
    | .event e => some e
    | .complete => none

/-! ## Relay URL utilities (`src/unnamed/part_004`) -/

/-- The local relay sentinel URL (part_004 line 3). -/
def LOCAL_RELAY_URL : String := "local://welshman.relay"

/-- The "no relays matched" sentinel URL (part_004 line 5). -/
def BOGUS_RELAY_URL : String := "bogus://welshman.relay"

/-- Model of JS `toLowerCase` on one character: ASCII uppercase letters
(code points 65-90) map to their lowercase counterpart, everything else is
unchanged.  The relay-url code applies it to protocol/host text. -/
def charToLower (c : Char) : Char :=
  if h : 65 ≤ c.toNat ∧ c.toNat ≤ 90 then
    Char.ofNatAux (c.toNat + 32) (Or.inl (by omega))
  else c

/-- Model of JS `toLowerCase` on a string: character-wise `charToLower`. -/
def strToLower (s : String) : String :=
  ⟨s.data.map charToLower⟩

/-- A character is ASCII uppercase (code points 65-90). -/
def isAsciiUpper (c : Char) : Bool :=
  decide (65 ≤ c.toNat) && decide (c.toNat ≤ 90)

/-- The match of the regex `^wss?:\/\//` against the input (part_004 line
29), used only when `allowInsecure` is set. -/
def wsProtocolMatch (url : String) : Option String :=
  if url.startsWith "wss://" then some "wss://"
  else if url.startsWith "ws://" then some "ws://"
  else none

/-- `normalizeRelayUrl` (part_004 lines 28-43): pick the protocol (always
`wss://` unless `allowInsecure` and the input already had a ws protocol),
normalize via the library, strip the protocol and lowercase, append a
trailing slash when the remainder has no `/`, and prepend the protocol.
The helpers `normalizeUrl` and `stripProtocol` live in `@welshman/lib`,
which is not among the sources, so they are parameters and the theorems
quantify over them. -/
def normalizeRelayUrl (normalizeUrl stripProtocol : String → String)
    (allowInsecure : Bool) (url : String) : String :=
  let proto := if allowInsecure then (wsProtocolMatch url).getD "wss://" else "wss://"
  let url1 := normalizeUrl url
  let url2 := strToLower (stripProtocol url1)
  let url3 := if !(url2.data.contains '/') then url2 ++ "/" else url2
  proto ++ url3

/-! ## Feed compiler (`src/packages/feeds/compiler.ts`)

The `Feed` data type follows the tagged-array encodings of the feeds core
module (src/unnamed/part_002): each feed is its `FeedType` tag followed by
its payload.  The callbacks of `FeedOptions` and the small `@welshman/util`
helpers the compiler imports (`Tags`, `getIdFilters`, `unionFilters`,
`intersectFilters`) are not among the sources; they appear as fields of the
environment below, abstract because no claim depends on their behavior. -/

/-- Scopes of a dynamic filter (part_002). -/
inductive Scope where
  | self | global | follows | followers
deriving Repr, DecidableEq

/-- A `DynamicFilter` is a filter extended with scope/wot/relative-time
fields (part_002). -/
structure DynamicFilter extends Filter where
  scopes : Option (List Scope) := none
  min_wot : Option ℚ := none
  max_wot : Option ℚ := none
  until_ago : Option Int := none
  since_ago : Option Int := none
deriving Repr, DecidableEq

/-- `RequestItem`: relays plus filters (part_002, spec §3). -/
structure RequestItem where
  relays : List String
  filters : List Filter
deriving Repr, DecidableEq

/-- A DVM request item (part_002). -/
structure DVMItem where
  kind : Nat
  tags : Option (List Tag) := none
deriving Repr, DecidableEq

/-- Feeds (part_002): a tagged union over `FeedType`. -/
inductive Feed where
  | relay (relays : List String) (subs : List Feed)
  | difference (subs : List Feed)
  | intersection (subs : List Feed)
  | symmetricDifference (subs : List Feed)
  | union (subs : List Feed)
  | filterF (filters : List DynamicFilter)
  | list (addresses : List String)
  | lol (addresses : List String)
  | dvm (items : List DVMItem)

/-- The `FeedType` tag of a feed, with the enum's string values
(part_002). -/
def Feed.typeName : Feed → String
  | .relay _ _ => "relay"
  | .difference _ => "\\"
  | .intersection _ => "∩"
  | .symmetricDifference _ => "Δ"
  | .union _ => "∪"
  | .filterF _ => "filter"
  | .list _ => "list"
  | .lol _ => "lol"
  | .dvm _ => "dvm"

/-- The sub-feeds of a feed: for a relay feed the payload after the relay
list, for the set operations the whole payload, none otherwise (mirrors
`getSubFeeds` of the feeds core module, whose current version is not among
the sources; its behavior is fixed by the `Feed` encodings of part_002 and
its uses in compiler.ts). -/
def getSubFeeds : Feed → List Feed
  | .relay _ subs => subs
  | .difference subs => subs
  | .intersection subs => subs
  | .symmetricDifference subs => subs
  | .union subs => subs
  | .filterF _ => []
  | .list _ => []
  | .lol _ => []
  | .dvm _ => []

/-- The compiler's environment: the `FeedOptions` callbacks (request
delivery is modelled as the pure list of events each request yields) and
the `@welshman/util` helpers absent from the sources. -/
structure FeedOptions where
  getPubkeysForScope : Scope → List String
  getPubkeysForWotRange : ℚ → ℚ → List String
  now : Int
  request : List Filter → List Event
  requestDvm : DVMItem → List Event
  parseRequest : Option String → Option String × Option String
  getIdFilters : List String → List Filter
  unionFilters : List Filter → List Filter
  intersectFilters : List (List Filter) → List Filter
  tagsRelays : List Tag → List String

/-- `Tags.values(key)`: the values of the tags whose key is `key`. -/
def tagValuesByKey (tags : List Tag) (key : String) : List String :=
  tags.filterMap fun t =>
    match t with
    | k :: v :: _ => if k = key then some v else none
    | _ => none

/-- `Tags.filterByKey(keys)`: the tags whose key is among `keys`. -/
def tagsFilterByKeys (keys : List String) (tags : List Tag) : List Tag :=
  tags.filter fun t => keys.contains (t.headD "")

/-- `Tags.values()`: the values of all tags. -/
def tagValuesAll (tags : List Tag) : List String :=
  tags.filterMap fun t => t.get? 1

mutual

/-- `canCompile` (compiler.ts lines 18-31): relay/union/intersection feeds
are compilable when all their sub-feeds (`getSubFeeds`) are;
filter/list/dvm feeds always are; everything else is not. -/
def canCompile : Feed → Bool
  | .relay rs subs => canCompileAll (getSubFeeds (.relay rs subs))
  | .union subs => canCompileAll (getSubFeeds (.union subs))
  | .intersection subs => canCompileAll (getSubFeeds (.intersection subs))
  | .filterF _ => true
  | .list _ => true
  | .dvm _ => true
  | .difference _ => false
  | .symmetricDifference _ => false
  | .lol _ => false

/-- The `.every(this.canCompile)` fold over a list of sub-feeds. -/
def canCompileAll : List Feed → Bool
  | [] => true
  | f :: fs => canCompile f && canCompileAll fs

end

/-- `_compileFilter` (compiler.ts lines 145-171): resolve scopes into
authors when no authors are given, intersect or set authors from the
web-of-trust range when one of the wot bounds is present, and turn the
relative `until_ago`/`since_ago` offsets into absolute bounds. -/
def compileFilter (env : FeedOptions) (df : DynamicFilter) : Filter :=
  let f0 := df.toFilter
  let f1 :=
    if df.scopes.isSome && f0.authors.isNone then
      { f0 with authors := some ((df.scopes.getD []).flatMap env.getPubkeysForScope) }
    else f0
  let f2 :=
    if df.min_wot.isSome || df.max_wot.isSome then
      let authors := env.getPubkeysForWotRange (df.min_wot.getD 0) (df.max_wot.getD 1)
      match f1.authors with
      | some as => { f1 with authors := some (as.filter fun p => authors.contains p) }
      | none => { f1 with authors := some authors }
    else f1
  let f3 :=
    match df.until_ago with
    | some ago => { f2 with until_ := some (env.now - ago) }
    | none => f2
  match df.since_ago with
  | some ago => { f3 with since := some (env.now - ago) }
  | none => f3

/-- `_getFiltersFromTags` (compiler.ts lines 173-199): build `#t`, authors
and id/address filters from the usable tags, falling back to the
match-nothing filter `{authors: []}` when there are none. -/
def getFiltersFromTags (env : FeedOptions) (tags : List Tag) : List Filter :=
  let ttags := tagValuesByKey tags "t"
  let ptags := tagValuesByKey tags "p"
  let eatags := tagValuesAll (tagsFilterByKeys ["e", "a"] tags)
  let filters :=
    (if !ttags.isEmpty then [({tagFilters := [("t", ttags)]} : Filter)] else []) ++
    (if !ptags.isEmpty then [({authors := some ptags} : Filter)] else []) ++
    (if !eatags.isEmpty then env.getIdFilters eatags else [])
  if filters.isEmpty then [({authors := some []} : Filter)] else filters

/-- `uniq` of `@welshman/lib` with an explicit accumulator of the values
already emitted. -/
def uniqAux : List String → List String → List String
  | [], _ => []
  | x :: xs, seen =>
    if seen.contains x then uniqAux xs seen
    else x :: uniqAux xs (x :: seen)

/-- `uniq` of `@welshman/lib`: first occurrences, in order. -/
def uniq (l : List String) : List String :=
  uniqAux l []

/-- `_compileUnion` (compiler.ts lines 58-80) applied to the sub-results:
collect the relays (deduplicated) and the union of the filters. -/
def compileUnionItems (env : FeedOptions) (items : List RequestItem) : RequestItem :=
  { relays := uniq (items.flatMap fun i => i.relays),
    filters := env.unionFilters (items.flatMap fun i => i.filters) }

/-- The `items.forEach` loop of `_compileIntersection` (compiler.ts lines
89-93): each item that contributed a non-empty relay list filters the
accumulator down to the relays it contains. -/
def intersectRelayLoop (items : List RequestItem) (relays : List String) : List String :=
  items.foldl
    (fun rs item =>
      if 0 < item.relays.length then rs.filter fun r => item.relays.contains r else rs)
    relays

/-- `_compileIntersection` (compiler.ts lines 82-100) applied to the
sub-results: intersect the filters, intersect the relay contributions, and
fall back to `BOGUS_RELAY_URL` when some item contributed relays but the
intersection came out empty. -/
def compileIntersectionItems (env : FeedOptions) (items : List RequestItem) : RequestItem :=
  let filters := env.intersectFilters (items.map fun i => i.filters)
  let relays0 := uniq (items.flatMap fun i => i.relays)
  let hasRelays := decide (0 < relays0.length)
  let relays1 := intersectRelayLoop items relays0
  let relays2 :=
    if hasRelays && relays1.length == 0 then relays1 ++ [BOGUS_RELAY_URL] else relays1
  { relays := relays2, filters := filters }

/-- `_compileLists` (compiler.ts lines 102-116): request the list events by
id/address, then build filters from their tags. -/
def compileLists (env : FeedOptions) (addresses : List String) : RequestItem :=
  let events := env.request (env.getIdFilters addresses)
  { relays := [], filters := getFiltersFromTags env (events.flatMap fun e => e.tags) }

/-- The `onEvent` body of `_compileDvms` (compiler.ts lines 125-130): keep
the response's `t`/`p`/`e`/`a` tags, dropping those whose value is the id
or pubkey parsed from the response's `request` tag (an absent parse field
never matches). -/
def processDvmEvent (env : FeedOptions) (e : Event) : List Tag :=
  let idPk := env.parseRequest ((tagValuesByKey e.tags "request").head?)
  let rejected := [idPk.1, idPk.2].filterMap id
  (tagsFilterByKeys ["t", "p", "e", "a"] e.tags).filter fun t =>
    !(rejected.contains ((t.get? 1).getD ""))

/-- `_compileDvms` (compiler.ts lines 118-141): merge the processed
response tags of every request, take their relay hints, and build filters
from them. -/
def compileDvms (env : FeedOptions) (requests : List DVMItem) : RequestItem :=
  let mergedTags := requests.flatMap fun r => (env.requestDvm r).flatMap (processDvmEvent env)
  { relays := env.tagsRelays mergedTags, filters := getFiltersFromTags env mergedTags }

mutual

/-- `compile` (compiler.ts lines 33-56): dispatch on the feed type;
unsupported types throw `Unable to convert feed ...`.  Compiling the
sub-feeds of a relay feed goes through `_compileUnion` on the payload
after the relay list, whose relays are then concatenated. -/
def compile (env : FeedOptions) : Feed → Except String RequestItem
  | .union subs => do
    let items ← compileAll env subs
    pure (compileUnionItems env items)
  | .intersection subs => do
    let items ← compileAll env subs
    pure (compileIntersectionItems env items)
  | .relay relays subs => do
    let items ← compileAll env subs
    let u := compileUnionItems env items
    pure { relays := u.relays ++ relays, filters := u.filters }
  | .filterF dfs => pure { relays := [], filters := dfs.map fun df => compileFilter env df }
  | .list addresses => pure (compileLists env addresses)
  | .dvm items => pure (compileDvms env items)
  | .difference subs =>
    throw ("Unable to convert feed of type " ++ (Feed.difference subs).typeName ++ " to filters")
  | .symmetricDifference subs =>
    throw ("Unable to convert feed of type " ++ (Feed.symmetricDifference subs).typeName ++ " to filters")
  | .lol addresses =>
    throw ("Unable to convert feed of type " ++ (Feed.lol addresses).typeName ++ " to filters")

/-- Compilation of a list of sub-feeds (the `Promise.all` over
`feeds.map(this.compile)`): fails iff some sub-feed fails. -/
def compileAll (env : FeedOptions) : List Feed → Except String (List RequestItem)
  | [] => pure []
  | f :: fs => do
    let i ← compile env f
    let is ← compileAll env fs
    pure (i :: is)

end

/-! ## Router

Modelled from the spec (§4.5): the Router implementation is not among the
sources.  A scenario is a sequence of weighted relay-set contributions,
reduced to an ordered relay list by (a) merging duplicate URLs by summing
weight, (b) sorting descending by combined weight breaking ties by quality
score, (c) truncating to the limit, (d) appending fallback relays, how
many being decided by a pluggable fallback policy
`(currentCount, limit) → howManyMoreToAdd`.  Weights and quality scores are
rationals (the spec treats them as plain numbers in `[0,1]`). -/

/-- Modelled from the spec: the Router's pluggable callbacks. -/
structure RouterOptions where
  getRelayQuality : String → ℚ
  getFallbackRelays : List String
  getLimit : Nat

/-- Modelled from the spec: one weighted relay-set contribution of a
scenario. -/
structure RelaySelection where
  relays : List String
  weight : ℚ

/-- Modelled from the spec: a fallback policy maps
`(currentCount, limit)` to how many fallback relays to append. -/
abbrev FallbackPolicy := Nat → Nat → Nat

/-- The maximal fallback policy: fill up to the limit. -/
def addMaximalFallbacks : FallbackPolicy := fun count limit => limit - count

/-- Step (a): add one URL's weight into the merged accumulator. -/
def addWeight : List (String × ℚ) → String → ℚ → List (String × ℚ)
  | [], url, w => [(url, w)]
  | (u, w0) :: rest, url, w =>
    if u == url then (u, w0 + w) :: rest else (u, w0) :: addWeight rest url w

/-- Step (a): merge duplicate URLs across contributions by summing
weight. -/
def mergeWeights (sels : List RelaySelection) : List (String × ℚ) :=
  sels.foldl (fun acc sel => sel.relays.foldl (fun a url => addWeight a url sel.weight) acc) []

/-- Step (b): insert into a list sorted descending by weight, ties broken
by quality score. -/
def insertRanked (opts : RouterOptions) (x : String × ℚ) :
    List (String × ℚ) → List (String × ℚ)
  | [] => [x]
  | y :: ys =>
    if x.2 > y.2 ∨ (x.2 = y.2 ∧ opts.getRelayQuality y.1 ≤ opts.getRelayQuality x.1) then
      x :: y :: ys
    else y :: insertRanked opts x ys

/-- Step (b): sort the merged entries descending by combined weight, ties
broken by quality score. -/
def rankSelections (opts : RouterOptions) (l : List (String × ℚ)) : List (String × ℚ) :=
  l.foldr (insertRanked opts) []

/-- Modelled from the spec: reduce a scenario to its final ordered relay
list — merge, sort, truncate to the limit, then append as many fallback
relays (not already chosen) as the fallback policy asks for. -/
def getUrls (opts : RouterOptions) (policy : FallbackPolicy)
    (sels : List RelaySelection) : List String :=
  let merged := mergeWeights sels
  let ranked := (rankSelections opts merged).map fun p => p.1
  let limited := ranked.take opts.getLimit
  let extra := policy limited.length opts.getLimit
  limited ++ (opts.getFallbackRelays.filter fun r => !(limited.contains r)).take extra

/-! ## Helper lemmas -/

/-- An event with a replaceable/addressable identity key is not a deletion
event. -/
lemma beq_deletion_eq_false_of_identityKey {e : Event} {k : Nat × String × String}
    (h : identityKey e = some k) : (e.kind == DELETION_KIND) = false := by
  by_cases h5 : e.kind = DELETION_KIND
  · have h1 : isReplaceableKind DELETION_KIND = false := by decide
    have h2 : isAddressableKind DELETION_KIND = false := by decide
    unfold identityKey at h
    rw [h5, h1, h2] at h
    simp at h
  · simp [h5]

/-- `applyDeletion` is a no-op on non-deletion events. -/
lemma applyDeletion_noop {e : Event} (h : (e.kind == DELETION_KIND) = false)
    (repo : Repository) : applyDeletion repo e = repo := by
  unfold applyDeletion
  rw [h]
  simp

/-- `applyDeletion` never touches the stored events. -/
lemma applyDeletion_events (repo : Repository) (e : Event) :
    (applyDeletion repo e).events = repo.events := by
  unfold applyDeletion
  split <;> rfl

/-- Publishing to the empty repository always stores the event (possibly
recording its tombstones when it is a deletion event). -/
lemma publish_empty (e : Event) :
    Repository.empty.publish e =
      applyDeletion { events := [e], deletedIds := [], deletedAddrs := [] } e := by
  unfold Repository.publish Repository.empty
  cases h : identityKey e <;> simp [h]

/-- Elements of `dedupByIdAux` come from the input list. -/
lemma mem_of_mem_dedupByIdAux {a : Event} :
    ∀ {l : List Event} {seen : List String}, a ∈ dedupByIdAux l seen → a ∈ l := by
  intro l
  induction l with
  | nil => intro seen h; simp [dedupByIdAux] at h
  | cons e es ih =>
    intro seen h
    unfold dedupByIdAux at h
    split at h
    · exact List.mem_cons_of_mem _ (ih h)
    · rcases List.mem_cons.mp h with h' | h'
      · exact h' ▸ List.mem_cons_self _ _
      · exact List.mem_cons_of_mem _ (ih h')

/-- Membership in `insertByRecency`. -/
lemma mem_insertByRecency {a e : Event} {l : List Event} :
    a ∈ insertByRecency e l ↔ a = e ∨ a ∈ l := by
  induction l with
  | nil => simp [insertByRecency]
  | cons x xs ih =>
    unfold insertByRecency
    split
    · simp
    · simp only [List.mem_cons, ih]
      tauto

/-- `sortByRecency` preserves membership. -/
lemma mem_sortByRecency {a : Event} {l : List Event} :
    a ∈ sortByRecency l ↔ a ∈ l := by
  induction l with
  | nil => simp [sortByRecency]
  | cons x xs ih =>
    show a ∈ insertByRecency x (sortByRecency xs) ↔ _
    rw [mem_insertByRecency]
    simp only [List.mem_cons]
    rw [ih]

/-- Every query result is a visible (stored, non-tombstoned) event. -/
lemma mem_visible_of_mem_query {repo : Repository} {fs : List Filter} {a : Event}
    (h : a ∈ repo.query fs) : a ∈ repo.visible := by
  unfold Repository.query at h
  have h' := mem_of_mem_dedupByIdAux h
  rw [List.mem_flatMap] at h'
  obtain ⟨f, _, hf⟩ := h'
  have hmem : a ∈ (sortByRecency repo.visible).filter (matchFilter f) := by
    rcases hl : f.limit with _ | n <;> rw [hl] at hf
    · exact hf
    · exact List.mem_of_mem_take hf
  have := List.mem_of_mem_filter hmem
  exact mem_sortByRecency.mp this

/-- Visible events are not tombstoned. -/
lemma not_deleted_of_mem_visible {repo : Repository} {a : Event}
    (h : a ∈ repo.visible) : repo.isDeleted a = false := by
  unfold Repository.visible at h
  rcases List.mem_filter.mp h with ⟨_, h2⟩
  simpa using h2

/-- `applyDeletion` only ever extends the id tombstones. -/
lemma deletedIds_subset_applyDeletion (repo : Repository) (e : Event) :
    repo.deletedIds ⊆ (applyDeletion repo e).deletedIds := by
  unfold applyDeletion
  split
  · simp
  · exact fun _ h => h

/-- `publish` only ever extends the id tombstones. -/
lemma deletedIds_subset_publish (repo : Repository) (e : Event) :
    repo.deletedIds ⊆ (repo.publish e).deletedIds := by
  unfold Repository.publish
  split
  · exact fun _ h => h
  · cases h : identityKey e with
    | none =>
      simp only [h]
      exact deletedIds_subset_applyDeletion { repo with events := e :: repo.events } e
    | some k =>
      simp only [h]
      cases hf : repo.events.find? fun x => identityKey x == some k with
      | none =>
        simp only [hf]
        exact deletedIds_subset_applyDeletion { repo with events := e :: repo.events } e
      | some old =>
        simp only [hf]
        split
        · exact deletedIds_subset_applyDeletion
            { repo with events := e :: repo.events.filter fun x => !(identityKey x == some k) } e
        · exact fun _ h => h

/-- Publishing any sequence of events only ever extends the id
tombstones. -/
lemma deletedIds_subset_foldl_publish (es : List Event) :
    ∀ repo : Repository, repo.deletedIds ⊆ (es.foldl Repository.publish repo).deletedIds := by
  induction es with
  | nil => exact fun _ _ h => h
  | cons e es ih =>
    intro repo
    exact fun a h => ih (repo.publish e) (deletedIds_subset_publish repo e h)

/-- Querying a repository holding exactly one untombstoned event with the
unrestricted filter returns exactly that event. -/
lemma query_singleton_all (e : Event) :
    ({ events := [e] } : Repository).query [({} : Filter)] = [e] := by
  simp [Repository.query, Repository.visible, Repository.isDeleted, Repository.isDeletedId,
    Repository.isDeletedByAddress, sortByRecency, insertByRecency, matchFilter,
    dedupById, dedupByIdAux]

/-! ## Claims C5 and C6 -/

/-- `replaces` holds when the first event wins per the spec ordering. -/
lemma replaces_of_wins {e1 e2 : Event}
    (hord : e1.created_at < e2.created_at ∨
      (e1.created_at = e2.created_at ∧ e1.id < e2.id)) :
    replaces e2 e1 = true := by
  unfold replaces
  rcases hord with h | ⟨h, h'⟩
  · simp [h]
  · simp [h, h']

/-- `replaces` fails for the losing event per the spec ordering. -/
lemma not_replaces_of_loses {e1 e2 : Event}
    (hord : e1.created_at < e2.created_at ∨
      (e1.created_at = e2.created_at ∧ e1.id < e2.id)) :
    replaces e1 e2 = false := by
  unfold replaces
  rcases hord with h | ⟨h, h'⟩
  · have h1 : ¬ e2.created_at < e1.created_at := by omega
    have h2 : ¬ e2.created_at = e1.created_at := by omega
    simp [h1, h2]
  · have h1 : ¬ e2.created_at < e1.created_at := by omega
    have h2 : ¬ e2.id < e1.id := lt_asymm h'
    simp [h1, h2, h.symm]

/-- C5: for accepted events with the same replaceable (or addressable)
identity key, publishing both to the Repository in either order yields the
same state, in which only the winner (greatest `created_at`, ties to the
lexicographically greatest `id`) is stored and `query` returns only it;
the loser is rejected, not stored. -/
theorem repository_replaceable_latest_wins (e1 e2 : Event) (k : Nat × String × String)
    (hk1 : identityKey e1 = some k) (hk2 : identityKey e2 = some k)
    (hne : e1.id ≠ e2.id)
    (hord : e1.created_at < e2.created_at ∨
      (e1.created_at = e2.created_at ∧ e1.id < e2.id)) :
    (Repository.empty.publish e1).publish e2 = (Repository.empty.publish e2).publish e1 ∧
    ((Repository.empty.publish e1).publish e2).query [({} : Filter)] = [e2] ∧
    ((Repository.empty.publish e1).publish e2).events = [e2] := by
  have hd1 := beq_deletion_eq_false_of_identityKey hk1
  have hd2 := beq_deletion_eq_false_of_identityKey hk2
  have hne12 : (e1.id == e2.id) = false := beq_eq_false_iff_ne.mpr hne
  have hne21 : (e2.id == e1.id) = false := beq_eq_false_iff_ne.mpr (Ne.symm hne)
  have s1 : Repository.empty.publish e1 = { events := [e1] } := by
    rw [publish_empty, applyDeletion_noop hd1]
  have s2 : Repository.empty.publish e2 = { events := [e2] } := by
    rw [publish_empty, applyDeletion_noop hd2]
  have t1 : ({ events := [e1] } : Repository).publish e2 = { events := [e2] } := by
    unfold Repository.publish
    simp only [List.any_cons, List.any_nil, hne12, Bool.or_false, Bool.false_eq_true,
      if_false, hk2, List.find?_cons, hk1, beq_self_eq_true, replaces_of_wins hord,
      if_true, List.filter_cons, List.filter_nil, Bool.not_true]
    rw [applyDeletion_noop hd2]
  have t2 : ({ events := [e2] } : Repository).publish e1 = { events := [e2] } := by
    unfold Repository.publish
    simp only [List.any_cons, List.any_nil, hne21, Bool.or_false, Bool.false_eq_true,
      if_false, hk1, List.find?_cons, hk2, beq_self_eq_true, not_replaces_of_loses hord,
      Bool.false_eq_true, if_false]
  refine ⟨?_, ?_, ?_⟩
  · rw [s1, s2, t1, t2]
  · rw [s1, t1, query_singleton_all]
  · rw [s1, t1]

/-- C5 witness at concrete replaceable events. -/
theorem repository_replaceable_latest_wins_witness :
    (Repository.empty.publish { id := "idA", pubkey := "p", created_at := 10, kind := 0, tags := [] }).publish
        { id := "idB", pubkey := "p", created_at := 20, kind := 0, tags := [] } =
      (Repository.empty.publish { id := "idB", pubkey := "p", created_at := 20, kind := 0, tags := [] }).publish
        { id := "idA", pubkey := "p", created_at := 10, kind := 0, tags := [] } ∧
    ((Repository.empty.publish { id := "idA", pubkey := "p", created_at := 10, kind := 0, tags := [] }).publish
        { id := "idB", pubkey := "p", created_at := 20, kind := 0, tags := [] }).query [({} : Filter)] =
      [{ id := "idB", pubkey := "p", created_at := 20, kind := 0, tags := [] }] ∧
    ((Repository.empty.publish { id := "idA", pubkey := "p", created_at := 10, kind := 0, tags := [] }).publish
        { id := "idB", pubkey := "p", created_at := 20, kind := 0, tags := [] }).events =
      [{ id := "idB", pubkey := "p", created_at := 20, kind := 0, tags := [] }] :=
  repository_replaceable_latest_wins _ _ (0, "p", "") rfl rfl
    (by decide) (Or.inl (by decide))

/-- C6: once the Repository accepts a deletion event referencing id `X`,
`isDeleted(X)` holds, `X` is excluded from every subsequent default-mode
query (also after further publishes), while `dump()` still contains the
record for `X`. -/
theorem repository_deletion_tombstones (x d : Event)
    (h5 : d.kind = DELETION_KIND) (href : x.id ∈ eventTagValues d "e")
    (hne : d.id ≠ x.id) :
    ((Repository.empty.publish x).publish d).isDeletedId x.id = true ∧
    (∀ (es : List Event) (fs : List Filter),
      x ∉ (es.foldl Repository.publish ((Repository.empty.publish x).publish d)).query fs) ∧
    x ∈ ((Repository.empty.publish x).publish d).dump := by
  have hkd : identityKey d = none := by
    have h1 : isReplaceableKind DELETION_KIND = false := by decide
    have h2 : isAddressableKind DELETION_KIND = false := by decide
    unfold identityKey
    rw [h5, h1, h2]
    simp
  have hxid : (x.id == d.id) = false := beq_eq_false_iff_ne.mpr fun h => hne h.symm
  have hrepo0ev : (Repository.empty.publish x).events = [x] := by
    rw [publish_empty, applyDeletion_events]
  have hstep : ∀ repo : Repository, repo.events = [x] →
      repo.publish d = applyDeletion { repo with events := d :: repo.events } d := by
    intro repo hev
    unfold Repository.publish
    rw [hev]
    simp only [List.any_cons, List.any_nil, hxid, Bool.or_false, Bool.false_eq_true,
      if_false, hkd]
  have hstep' := hstep _ hrepo0ev
  have hdel : x.id ∈ ((Repository.empty.publish x).publish d).deletedIds := by
    rw [hstep']
    unfold applyDeletion
    rw [h5]
    simp only [beq_self_eq_true, if_true]
    exact List.mem_append_right _ href
  refine ⟨?_, ?_, ?_⟩
  · unfold Repository.isDeletedId
    exact List.elem_iff.mpr hdel
  · intro es fs hmem
    have hvis := mem_visible_of_mem_query hmem
    have hnotdel := not_deleted_of_mem_visible hvis
    have hd : (es.foldl Repository.publish ((Repository.empty.publish x).publish d)).isDeletedId x.id = true := by
      unfold Repository.isDeletedId
      exact List.elem_iff.mpr (deletedIds_subset_foldl_publish es _ hdel)
    unfold Repository.isDeleted at hnotdel
    rw [hd] at hnotdel
    simp at hnotdel
  · rw [hstep']
    unfold Repository.dump
    rw [applyDeletion_events]
    exact List.mem_cons_of_mem _ (hrepo0ev ▸ List.mem_cons_self _ _)

/-- C6 witness at a concrete event and deletion. -/
theorem repository_deletion_tombstones_witness :
    ((Repository.empty.publish { id := "a", pubkey := "p", created_at := 10, kind := 1, tags := [] }).publish
        { id := "d1", pubkey := "p", created_at := 30, kind := 5, tags := [["e", "a"]] }).isDeletedId "a" = true ∧
    (∀ (es : List Event) (fs : List Filter),
      { id := "a", pubkey := "p", created_at := 10, kind := 1, tags := [] } ∉
        (es.foldl Repository.publish
          ((Repository.empty.publish { id := "a", pubkey := "p", created_at := 10, kind := 1, tags := [] }).publish
            { id := "d1", pubkey := "p", created_at := 30, kind := 5, tags := [["e", "a"]] })).query fs) ∧
    { id := "a", pubkey := "p", created_at := 10, kind := 1, tags := [] } ∈
      ((Repository.empty.publish { id := "a", pubkey := "p", created_at := 10, kind := 1, tags := [] }).publish
        { id := "d1", pubkey := "p", created_at := 30, kind := 5, tags := [["e", "a"]] }).dump :=
  repository_deletion_tombstones _ _ rfl (by decide) (by decide)

/-! ## Claims C1, C2, C3 -/

/-- A filter whose statically bounded result cardinality is met by the
repository's query results (the shortcut's per-filter condition,
core.ts lines 44-49). -/
def isFullyCachedFilter (repo : Repository) (f : Filter) : Bool :=
  match getFilterResultCardinality f with
  | some n => (repo.query [f]).length == n
  | none => false

/-- Characterization of the shortcut loop: the filters kept for the
network are exactly those before the first fully-cached filter (the
`break` drops the first fully-cached filter and everything after it), and
the recorded events are the query results of that first fully-cached
filter. -/
lemma scanFilters_eq (repo : Repository) (filters : List Filter) :
    scanFilters repo filters =
      (filters.takeWhile fun f => !isFullyCachedFilter repo f,
       match filters.find? (isFullyCachedFilter repo) with
       | some f => repo.query [f]
       | none => []) := by
  induction filters with
  | nil => rfl
  | cons f fs ih =>
    unfold scanFilters
    rcases hc : getFilterResultCardinality f with _ | n
    · have hfc : isFullyCachedFilter repo f = false := by
        simp [isFullyCachedFilter, hc]
      rw [ih]
      simp [hfc, List.takeWhile_cons, List.find?_cons, hc]
    · by_cases hlen : (repo.query [f]).length = n
      · have hfc : isFullyCachedFilter repo f = true := by
          simp [isFullyCachedFilter, hc, hlen]

        simp [hc, hlen, hfc, List.takeWhile_cons, List.find?_cons]
      · have hfc : isFullyCachedFilter repo f = false := by
          simp [isFullyCachedFilter, hc, hlen]
        rw [ih]
        simp [hc, hlen, hfc, List.takeWhile_cons, List.find?_cons]

/-- C1 (amended): for a subscribe request with `closeOnEose`, the filters
handed to the network are exactly those before the first filter whose
cardinality bound is met by the Repository (that filter and everything
after it are removed), and the cached query results of that first
fully-cached filter are all delivered to the handler the caller registers
after `subscribe` returns — the deferred emission runs only after
registration, so none of those cached events is missed. -/
theorem subscribe_cache_shortcut (repo : Repository) (req : PartialSubscribeRequest)
    (h : req.closeOnEose = some true) :
    (subscribeScenario repo req).1 =
      (req.filters.takeWhile fun f => !isFullyCachedFilter repo f) ∧
    (subscribeScenario repo req).2.delivered =
      (match req.filters.find? (isFullyCachedFilter repo) with
       | some f => repo.query [f]
       | none => []) ∧
    (subscribeScenario repo req).2.handlerRegistered = true := by
  unfold subscribeScenario subscribeCall subscribeShortcut registerHandler drainQueue
  rw [h]
  simp [scanFilters_eq, runAppTask]

/-- C1 witness: a concrete `closeOnEose` request against a repository
caching the single requested id. -/
theorem subscribe_cache_shortcut_witness :
    (subscribeScenario (Repository.empty.publish { id := "a", pubkey := "p", created_at := 10, kind := 1, tags := [] })
        { filters := [{ ids := some ["a"] }, { kinds := some [1] }], closeOnEose := some true }).1 =
      ([{ ids := some ["a"] }, { kinds := some [1] }].takeWhile fun f =>
        !isFullyCachedFilter (Repository.empty.publish { id := "a", pubkey := "p", created_at := 10, kind := 1, tags := [] }) f) ∧
    (subscribeScenario (Repository.empty.publish { id := "a", pubkey := "p", created_at := 10, kind := 1, tags := [] })
        { filters := [{ ids := some ["a"] }, { kinds := some [1] }], closeOnEose := some true }).2.delivered =
      (match [({ ids := some ["a"] } : Filter), { kinds := some [1] }].find?
          (isFullyCachedFilter (Repository.empty.publish { id := "a", pubkey := "p", created_at := 10, kind := 1, tags := [] })) with
       | some f => (Repository.empty.publish { id := "a", pubkey := "p", created_at := 10, kind := 1, tags := [] }).query [f]
       | none => []) ∧
    (subscribeScenario (Repository.empty.publish { id := "a", pubkey := "p", created_at := 10, kind := 1, tags := [] })
        { filters := [{ ids := some ["a"] }, { kinds := some [1] }], closeOnEose := some true }).2.handlerRegistered = true :=
  subscribe_cache_shortcut _ _ rfl

/-- C1 counterexample.  First: for a subscribe request without
`closeOnEose`, a filter whose cardinality bound is met by the Repository
is nevertheless kept in the network request and its cached results are not
delivered — refuting the claim's "for every subscribe request".  Second:
with `closeOnEose` and two fully-cached ids filters, only the first
filter's cached result is delivered — the second cached event `"c"` is
missed, refuting "each filter ... its cached results are delivered ... so
no cached event is missed". -/
theorem subscribe_cache_shortcut_counterexample :
    (getFilterResultCardinality { ids := some ["b"] } = some 1 ∧
     ((Repository.empty.publish { id := "b", pubkey := "p", created_at := 10, kind := 1, tags := [] }).query
       [{ ids := some ["b"] }]).length = 1 ∧
     (subscribeScenario (Repository.empty.publish { id := "b", pubkey := "p", created_at := 10, kind := 1, tags := [] })
         { filters := [{ ids := some ["b"] }] }).1 = [{ ids := some ["b"] }] ∧
     (subscribeScenario (Repository.empty.publish { id := "b", pubkey := "p", created_at := 10, kind := 1, tags := [] })
         { filters := [{ ids := some ["b"] }] }).2.delivered = []) ∧
    ((isFullyCachedFilter
        ((Repository.empty.publish { id := "b", pubkey := "p", created_at := 10, kind := 1, tags := [] }).publish
          { id := "c", pubkey := "p", created_at := 11, kind := 1, tags := [] })
        { ids := some ["c"] } = true) ∧
     (subscribeScenario
        ((Repository.empty.publish { id := "b", pubkey := "p", created_at := 10, kind := 1, tags := [] }).publish
          { id := "c", pubkey := "p", created_at := 11, kind := 1, tags := [] })
        { filters := [{ ids := some ["b"] }, { ids := some ["c"] }], closeOnEose := some true }).2.delivered =
       [{ id := "b", pubkey := "p", created_at := 10, kind := 1, tags := [] }]) := by
  exact ⟨⟨rfl, rfl, rfl, rfl⟩, rfl, rfl⟩

/-- C2: the code evaluated at the failing input.  With event `"a"` cached,
a `closeOnEose` request over `[{ids: ["a"]}, {kinds: [1]}]` hands the
network the empty filter list: the `break` after the fully-cached ids
filter also drops the `{kinds: [1]}` filter, which is not fully cached —
the claim (and the code's own comment) expect `[{kinds: [1]}]` to be
kept. -/
theorem subscribe_shortcut_break_drops_trailing_filter :
    subscribeShortcut (Repository.empty.publish { id := "a", pubkey := "p", created_at := 10, kind := 1, tags := [] })
        { filters := [{ ids := some ["a"] }, { kinds := some [1] }], closeOnEose := some true } =
      ([], [{ id := "a", pubkey := "p", created_at := 10, kind := 1, tags := [] }]) ∧
    isFullyCachedFilter (Repository.empty.publish { id := "a", pubkey := "p", created_at := 10, kind := 1, tags := [] })
        { kinds := some [1] } = false := by
  refine ⟨rfl, rfl⟩

/-- `load`'s promise resolves exactly at the first `Complete` emission,
with the events accumulated before it. -/
lemma loadResult_eq (trace : List SubEmission) :
    loadResult trace =
      if trace.any SubEmission.isComplete then some (eventsBeforeComplete trace) else none := by
  induction trace with
  | nil => rfl
  | cons em rest ih =>
    cases em with
    | complete => simp [loadResult, eventsBeforeComplete, SubEmission.isComplete]
    | event e =>
      rw [loadResult, ih]
      by_cases h : rest.any SubEmission.isComplete
      · simp [h, eventsBeforeComplete, SubEmission.isComplete]
      · simp [h, SubEmission.isComplete]

/-- C3 (amended): for every request that does not itself set
`closeOnEose`, `load` subscribes with `closeOnEose = true`, and the
returned promise resolves exactly when the subscription emits `Complete`,
with precisely the events delivered before completion; with no `Complete`
it never resolves. -/
theorem load_subscribes_closeOnEose (requestTimeout : Nat) (req : PartialSubscribeRequest)
    (h : req.closeOnEose = none) :
    (loadSubscribeArgs requestTimeout req).closeOnEose = some true ∧
    ∀ trace : List SubEmission,
      loadResult trace =
        if trace.any SubEmission.isComplete then some (eventsBeforeComplete trace) else none := by
  constructor
  · unfold loadSubscribeArgs
    rw [h]
    rfl
  · exact loadResult_eq

/-- C3 witness: a concrete request without `closeOnEose` and a concrete
emission trace. -/
theorem load_subscribes_closeOnEose_witness :
    (loadSubscribeArgs 3000 { filters := [] }).closeOnEose = some true ∧
    loadResult
        [SubEmission.event { id := "x", pubkey := "p", created_at := 1, kind := 1, tags := [] },
         SubEmission.complete,
         SubEmission.event { id := "y", pubkey := "p", created_at := 2, kind := 1, tags := [] }] =
      some [{ id := "x", pubkey := "p", created_at := 1, kind := 1, tags := [] }] :=
  ⟨(load_subscribes_closeOnEose 3000 { filters := [] } rfl).1,
   ((load_subscribes_closeOnEose 3000 { filters := [] } rfl).2
      [SubEmission.event { id := "x", pubkey := "p", created_at := 1, kind := 1, tags := [] },
       SubEmission.complete,
       SubEmission.event { id := "y", pubkey := "p", created_at := 2, kind := 1, tags := [] }]).trans rfl⟩

/-- C3 counterexample: a request that sets `closeOnEose = false` overrides
`load`'s default because the request is spread over the defaults, so
`load` does not subscribe with `closeOnEose = true` for every request. -/
theorem load_closeOnEose_override_counterexample :
    (loadSubscribeArgs 3000 { filters := [], closeOnEose := some false }).closeOnEose = some false :=
  rfl

/-! ## Claim C4 -/

/-- Membership in `uniqAux`: the elements of the input not in the seen
accumulator. -/
lemma mem_uniqAux {a : String} :
    ∀ {l seen : List String}, a ∈ uniqAux l seen ↔ a ∈ l ∧ a ∉ seen := by
  intro l
  induction l with
  | nil => intro seen; simp [uniqAux]
  | cons x xs ih =>
    intro seen
    unfold uniqAux
    by_cases hx : x ∈ seen
    · rw [if_pos (List.elem_iff.mpr hx), ih]
      constructor
      · exact fun h => ⟨List.mem_cons_of_mem _ h.1, h.2⟩
      · rintro ⟨h1, h2⟩
        rcases List.mem_cons.mp h1 with rfl | h1
        · exact absurd hx h2
        · exact ⟨h1, h2⟩
    · rw [if_neg fun hc => hx (List.elem_iff.mp hc)]
      simp only [List.mem_cons, ih, List.mem_cons]
      by_cases hax : a = x
      · subst hax
        simp [hx]
      · simp only [hax, false_or]

/-- Membership in `uniq` is membership in the input. -/
lemma mem_uniq {a : String} {l : List String} : a ∈ uniq l ↔ a ∈ l := by
  simp [uniq, mem_uniqAux]

/-- Membership after the intersection loop: a relay survives iff it was in
the accumulator and every item that contributed relays contains it. -/
lemma mem_intersectRelayLoop {r : String} :
    ∀ (items : List RequestItem) (rs : List String),
      r ∈ intersectRelayLoop items rs ↔
        r ∈ rs ∧ ∀ i ∈ items, i.relays ≠ [] → r ∈ i.relays := by
  intro items
  induction items with
  | nil => intro rs; simp [intersectRelayLoop]
  | cons i is ih =>
    intro rs
    show r ∈ intersectRelayLoop is (if 0 < i.relays.length then rs.filter fun x => i.relays.contains x else rs) ↔ _
    rw [ih]
    by_cases hi : 0 < i.relays.length
    · have hne : i.relays ≠ [] := List.ne_nil_of_length_pos hi
      rw [if_pos hi]
      simp only [List.mem_filter, List.mem_cons]
      constructor
      · rintro ⟨⟨h1, h2⟩, h3⟩
        refine ⟨h1, fun j hj _ => ?_⟩
        rcases hj with rfl | hj
        · exact List.elem_iff.mp h2
        · exact h3 j hj ‹j.relays ≠ []›
      · rintro ⟨h1, h2⟩
        exact ⟨⟨h1, List.elem_iff.mpr (h2 i (Or.inl rfl) hne)⟩,
          fun j hj hjne => h2 j (Or.inr hj) hjne⟩
    · have hnil : i.relays = [] := List.eq_nil_of_length_eq_zero (by omega)
      rw [if_neg hi]
      simp only [List.mem_cons]
      constructor
      · rintro ⟨h1, h2⟩
        refine ⟨h1, fun j hj hjne => ?_⟩
        rcases hj with rfl | hj
        · exact absurd hnil hjne
        · exact h2 j hj hjne
      · rintro ⟨h1, h2⟩
        exact ⟨h1, fun j hj hjne => h2 j (Or.inr hj) hjne⟩

/-- C4: for an intersection feed whose sub-feeds all compile, the compiled
relay list is the intersection of the relay sets of exactly those
sub-results that contributed a non-empty relay list; when at least one
contributed but the intersection is empty, it is exactly the sentinel
`BOGUS_RELAY_URL`; when none contributed, it is empty. -/
theorem compile_intersection_relays (env : FeedOptions) (feeds : List Feed)
    (items : List RequestItem) (item : RequestItem)
    (h1 : compileAll env feeds = Except.ok items)
    (h2 : compile env (Feed.intersection feeds) = Except.ok item) :
    ((∀ i ∈ items, i.relays = []) → item.relays = []) ∧
    ((∃ i ∈ items, i.relays ≠ []) →
      ((∃ r, ∀ i ∈ items, i.relays ≠ [] → r ∈ i.relays) →
        ∀ r, (r ∈ item.relays ↔ ∀ i ∈ items, i.relays ≠ [] → r ∈ i.relays)) ∧
      ((∀ r, ¬ ∀ i ∈ items, i.relays ≠ [] → r ∈ i.relays) →
        item.relays = [BOGUS_RELAY_URL])) := by
  have hitem : item = compileIntersectionItems env items := by
    rw [compile, h1] at h2
    simpa [Except.bind] using h2.symm
  subst hitem
  show _ ∧ _
  unfold compileIntersectionItems
  simp only []
  constructor
  · intro hall
    have h0 : uniq (items.flatMap fun i => i.relays) = [] := by
      rw [List.eq_nil_iff_forall_not_mem]
      intro r hr
      rw [mem_uniq, List.mem_flatMap] at hr
      obtain ⟨i, hi, hri⟩ := hr
      rw [hall i hi] at hri
      exact List.not_mem_nil _ hri
    rw [h0]
    have hloop : intersectRelayLoop items [] = [] := by
      rw [List.eq_nil_iff_forall_not_mem]
      intro r hr
      exact List.not_mem_nil _ ((mem_intersectRelayLoop items []).mp hr).1
    simp [hloop]
  · rintro ⟨i0, hi0, hi0ne⟩
    have hR0 : ∀ r, r ∈ uniq (items.flatMap fun i => i.relays) ↔ ∃ i ∈ items, r ∈ i.relays := by
      intro r
      rw [mem_uniq, List.mem_flatMap]
    have hloopmem : ∀ r, r ∈ intersectRelayLoop items (uniq (items.flatMap fun i => i.relays)) ↔
        (∀ i ∈ items, i.relays ≠ [] → r ∈ i.relays) := by
      intro r
      rw [mem_intersectRelayLoop, hR0]
      constructor
      · exact fun h => h.2
      · exact fun h => ⟨⟨i0, hi0, h i0 hi0 hi0ne⟩, h⟩
    constructor
    · rintro ⟨r0, hr0⟩ r
      have hne : intersectRelayLoop items (uniq (items.flatMap fun i => i.relays)) ≠ [] :=
        List.ne_nil_of_mem ((hloopmem r0).mpr hr0)
      have hlen : ((intersectRelayLoop items (uniq (items.flatMap fun i => i.relays))).length == 0) = false := by
        rw [beq_eq_false_iff_ne]
        simpa [List.length_eq_zero] using hne
      rw [if_neg (by rw [hlen]; simp)]
      exact hloopmem r
    · intro hno
      have hloopnil : intersectRelayLoop items (uniq (items.flatMap fun i => i.relays)) = [] := by
        rw [List.eq_nil_iff_forall_not_mem]
        intro r hr
        exact hno r ((hloopmem r).mp hr)
      have hR0ne : uniq (items.flatMap fun i => i.relays) ≠ [] := by
        obtain ⟨r1, hr1⟩ := List.exists_mem_of_ne_nil _ hi0ne
        exact List.ne_nil_of_mem ((hR0 r1).mpr ⟨i0, hi0, hr1⟩)
      rw [hloopnil]
      rw [if_pos]
      · rfl
      · simp [List.length_pos, hR0ne]

/-- A trivial feed-compiler environment for the concrete witnesses: every
external callback returns the least informative value. -/
def envTrivial : FeedOptions where
  getPubkeysForScope := fun _ => []
  getPubkeysForWotRange := fun _ _ => []
  now := 0
  request := fun _ => []
  requestDvm := fun _ => []
  parseRequest := fun _ => (none, none)
  getIdFilters := fun _ => []
  unionFilters := fun fs => fs
  intersectFilters := fun _ => []
  tagsRelays := fun _ => []

/-- C4 witness: intersecting two relay feeds with overlapping relay lists
keeps exactly the common relay. -/
theorem compile_intersection_relays_witness :
    (∃ i ∈ [({ relays := ["r1", "r2"], filters := [] } : RequestItem),
              { relays := ["r2", "r3"], filters := [] }], i.relays ≠ []) ∧
    ("r2" ∈ ({ relays := ["r2"], filters := [] } : RequestItem).relays ↔
      ∀ i ∈ [({ relays := ["r1", "r2"], filters := [] } : RequestItem),
               { relays := ["r2", "r3"], filters := [] }], i.relays ≠ [] → "r2" ∈ i.relays) := by
  have h := compile_intersection_relays envTrivial
    [Feed.relay ["r1", "r2"] [], Feed.relay ["r2", "r3"] []]
    [{ relays := ["r1", "r2"], filters := [] }, { relays := ["r2", "r3"], filters := [] }]
    { relays := ["r2"], filters := [] } rfl rfl
  refine ⟨⟨{ relays := ["r1", "r2"], filters := [] }, by simp⟩, ?_⟩
  exact (h.2 ⟨{ relays := ["r1", "r2"], filters := [] }, by simp⟩).1
    ⟨"r2", by intro i hi _; fin_cases hi <;> simp⟩ "r2"

/-! ## Claim C8 -/

/-- Mutual strong-induction core for C8: a compilable feed compiles, and a
list of compilable feeds compiles. -/
lemma compile_ok_of_canCompile_aux :
    ∀ n : Nat,
      (∀ f : Feed, sizeOf f ≤ n → ∀ env : FeedOptions,
        canCompile f = true → ∃ i, compile env f = Except.ok i) ∧
      (∀ fs : List Feed, sizeOf fs ≤ n → ∀ env : FeedOptions,
        canCompileAll fs = true → ∃ is, compileAll env fs = Except.ok is) := by
  intro n
  induction n using Nat.strong_induction_on with
  | _ n ih =>
    constructor
    · intro f hf env hc
      cases f with
      | relay rs subs =>
        have hsz : sizeOf subs < n := by
          have : sizeOf subs < sizeOf (Feed.relay rs subs) := by simp
          omega
        have hc' : canCompileAll subs = true := by simpa [canCompile, getSubFeeds] using hc
        obtain ⟨items, hitems⟩ := (ih _ hsz).2 subs le_rfl env hc'
        exact ⟨_, by rw [compile, hitems]; rfl⟩
      | union subs =>
        have hsz : sizeOf subs < n := by
          have : sizeOf subs < sizeOf (Feed.union subs) := by simp
          omega
        have hc' : canCompileAll subs = true := by simpa [canCompile, getSubFeeds] using hc
        obtain ⟨items, hitems⟩ := (ih _ hsz).2 subs le_rfl env hc'
        exact ⟨_, by rw [compile, hitems]; rfl⟩
      | intersection subs =>
        have hsz : sizeOf subs < n := by
          have : sizeOf subs < sizeOf (Feed.intersection subs) := by simp
          omega
        have hc' : canCompileAll subs = true := by simpa [canCompile, getSubFeeds] using hc
        obtain ⟨items, hitems⟩ := (ih _ hsz).2 subs le_rfl env hc'
        exact ⟨_, by rw [compile, hitems]; rfl⟩
      | filterF dfs => exact ⟨_, rfl⟩
      | list addresses => exact ⟨_, rfl⟩
      | dvm items => exact ⟨_, rfl⟩
      | difference subs => simp [canCompile] at hc
      | symmetricDifference subs => simp [canCompile] at hc
      | lol addresses => simp [canCompile] at hc
    · intro fs hfs env hc
      cases fs with
      | nil => exact ⟨[], rfl⟩
      | cons f fs =>
        have hsz1 : sizeOf f < n := by
          have : sizeOf f < sizeOf (f :: fs) := by simp; omega
          omega
        have hsz2 : sizeOf fs < n := by
          have : sizeOf fs < sizeOf (f :: fs) := by simp
          omega
        rw [canCompileAll, Bool.and_eq_true] at hc
        obtain ⟨i, hi⟩ := (ih _ hsz1).1 f le_rfl env hc.1
        obtain ⟨is, his⟩ := (ih _ hsz2).2 fs le_rfl env hc.2
        exact ⟨i :: is, by rw [compileAll, hi, his]; rfl⟩

/-- C8: whenever `canCompile` accepts a feed, `compile` produces a
`RequestItem` and never reaches the `Unable to convert feed` error. -/
theorem compile_ok_of_canCompile (env : FeedOptions) (f : Feed)
    (h : canCompile f = true) : ∃ item, compile env f = Except.ok item :=
  (compile_ok_of_canCompile_aux (sizeOf f)).1 f le_rfl env h

/-- C8 witness: a compilable union of a filter feed and a list feed. -/
theorem compile_ok_of_canCompile_witness :
    ∃ item, compile envTrivial (Feed.union [Feed.filterF [], Feed.list ["addr"]]) = Except.ok item :=
  compile_ok_of_canCompile envTrivial (Feed.union [Feed.filterF [], Feed.list ["addr"]]) rfl

/-! ## Claim C10 -/

/-- C10: `_getFiltersFromTags` always returns a non-empty filter list, and
when the tags yield no `#t`, authors, or id/address filters it returns
exactly the single filter `{authors: []}`, which matches no event. -/
theorem getFiltersFromTags_nonempty_fallback (env : FeedOptions) (tags : List Tag) :
    getFiltersFromTags env tags ≠ [] ∧
    ((tagValuesByKey tags "t" = [] ∧ tagValuesByKey tags "p" = [] ∧
      (tagValuesAll (tagsFilterByKeys ["e", "a"] tags) ≠ [] →
        env.getIdFilters (tagValuesAll (tagsFilterByKeys ["e", "a"] tags)) = [])) →
      (getFiltersFromTags env tags = [{ authors := some [] }] ∧
       ∀ e : Event, matchFilter { authors := some [] } e = false)) := by
  have hgen : ∀ (l : List Filter) (fb : Filter), (if l.isEmpty then [fb] else l) ≠ [] := by
    intro l fb
    split
    · simp
    · next h => simpa using h
  constructor
  · exact hgen _ _
  · rintro ⟨ht, hp, hea⟩
    have hmatch : ∀ e : Event, matchFilter { authors := some [] } e = false := by
      intro e
      simp [matchFilter]
    refine ⟨?_, hmatch⟩
    unfold getFiltersFromTags
    by_cases he : tagValuesAll (tagsFilterByKeys ["e", "a"] tags) = []
    · simp [ht, hp, he]
    · simp [ht, hp, he, hea he]

/-- C10 witness: tags with no usable keys yield exactly the match-nothing
filter. -/
theorem getFiltersFromTags_nonempty_fallback_witness :
    getFiltersFromTags envTrivial [["x", "y"]] ≠ [] ∧
    getFiltersFromTags envTrivial [["x", "y"]] = [{ authors := some [] }] ∧
    matchFilter { authors := some [] }
      { id := "z", pubkey := "p", created_at := 0, kind := 1, tags := [] } = false := by
  have h := getFiltersFromTags_nonempty_fallback envTrivial [["x", "y"]]
  have h2 := h.2 ⟨rfl, rfl, fun hc => absurd rfl hc⟩
  exact ⟨h.1, h2.1, h2.2 _⟩

/-! ## Claim C7 -/

/-- C7: a Router scenario with fallback relays `[F]`, limit 3 and a single
primary contribution of two distinct relays (whatever their quality
scores) yields exactly 3 URLs including `F` under the maximal fallback
policy. -/
theorem router_fallback_scenario (q : String → ℚ) (w : ℚ) (r1 r2 F : String)
    (h12 : r1 ≠ r2) (hF1 : F ≠ r1) (hF2 : F ≠ r2) :
    (getUrls { getRelayQuality := q, getFallbackRelays := [F], getLimit := 3 }
        addMaximalFallbacks [{ relays := [r1, r2], weight := w }]).length = 3 ∧
    F ∈ getUrls { getRelayQuality := q, getFallbackRelays := [F], getLimit := 3 }
        addMaximalFallbacks [{ relays := [r1, r2], weight := w }] := by
  have h12b : (r1 == r2) = false := beq_eq_false_iff_ne.mpr h12
  have hF1b : (F == r1) = false := beq_eq_false_iff_ne.mpr hF1
  have hF2b : (F == r2) = false := beq_eq_false_iff_ne.mpr hF2
  have hmerge : mergeWeights [{ relays := [r1, r2], weight := w }] = [(r1, w), (r2, w)] := by
    simp [mergeWeights, addWeight, h12b]
  have hrank :
      rankSelections { getRelayQuality := q, getFallbackRelays := [F], getLimit := 3 }
          [(r1, w), (r2, w)] = [(r1, w), (r2, w)] ∨
      rankSelections { getRelayQuality := q, getFallbackRelays := [F], getLimit := 3 }
          [(r1, w), (r2, w)] = [(r2, w), (r1, w)] := by
    unfold rankSelections
    simp only [List.foldr_cons, List.foldr_nil]
    show insertRanked _ (r1, w) (insertRanked _ (r2, w) []) = _ ∨ _
    rw [show insertRanked { getRelayQuality := q, getFallbackRelays := [F], getLimit := 3 }
      (r2, w) [] = [(r2, w)] from rfl]
    unfold insertRanked
    split
    · left
      rfl
    · right
      rfl
  rcases hrank with h | h <;>
    (simp only [getUrls]
     rw [hmerge, h]
     refine ⟨?_, ?_⟩ <;> simp [addMaximalFallbacks, hF1, hF2])

/-- C7 witness: concrete relays with quality score 0 (below any
threshold). -/
theorem router_fallback_scenario_witness :
    (getUrls { getRelayQuality := fun _ => 0, getFallbackRelays := ["wss://f/"], getLimit := 3 }
        addMaximalFallbacks [{ relays := ["wss://a/", "wss://b/"], weight := 1 }]).length = 3 ∧
    "wss://f/" ∈ getUrls { getRelayQuality := fun _ => 0, getFallbackRelays := ["wss://f/"], getLimit := 3 }
        addMaximalFallbacks [{ relays := ["wss://a/", "wss://b/"], weight := 1 }] :=
  router_fallback_scenario (fun _ => 0) 1 "wss://a/" "wss://b/" "wss://f/"
    (by decide) (by decide) (by decide)

/-! ## Claim C9 -/

/-- `Char.ofNatAux` stores its code point verbatim. -/
lemma toNat_ofNatAux (n : Nat) (h : n.isValidChar) : (Char.ofNatAux n h).toNat = n := rfl

/-- Lowercasing a character never yields an ASCII uppercase letter. -/
lemma isAsciiUpper_charToLower (c : Char) : isAsciiUpper (charToLower c) = false := by
  unfold charToLower
  split
  · next h =>
    unfold isAsciiUpper
    rw [toNat_ofNatAux]
    simp only [Bool.and_eq_false_iff, decide_eq_false_iff_not]
    omega
  · next h =>
    unfold isAsciiUpper
    simp only [Bool.and_eq_false_iff, decide_eq_false_iff_not]
    omega

/-- A lowercased string has no ASCII uppercase letter. -/
lemma strToLower_no_upper (s : String) :
    ∀ c ∈ (strToLower s).data, isAsciiUpper c = false := by
  intro c hc
  have hdata : (strToLower s).data = s.data.map charToLower := rfl
  rw [hdata, List.mem_map] at hc
  obtain ⟨c0, _, rfl⟩ := hc
  exact isAsciiUpper_charToLower c0

/-- C9: with default options, `normalizeRelayUrl` returns `wss://`
followed by a remainder that is lowercase (no ASCII uppercase letters) and
contains a `/` (a trailing slash is appended when there is no pathname) —
for every input and whatever the library's `normalizeUrl` and
`stripProtocol` return. -/
theorem normalizeRelayUrl_shape (normalizeUrl stripProtocol : String → String) (url : String) :
    ∃ rest : String,
      normalizeRelayUrl normalizeUrl stripProtocol false url = "wss://" ++ rest ∧
      (∀ c ∈ rest.data, isAsciiUpper c = false) ∧
      '/' ∈ rest.data := by
  by_cases hc : '/' ∈ (strToLower (stripProtocol (normalizeUrl url))).data
  · refine ⟨strToLower (stripProtocol (normalizeUrl url)), ?_, strToLower_no_upper _, hc⟩
    simp [normalizeRelayUrl, hc]
  · refine ⟨strToLower (stripProtocol (normalizeUrl url)) ++ "/", ?_, ?_, ?_⟩
    · simp [normalizeRelayUrl, hc]
    · intro c hcc
      have hdata : (strToLower (stripProtocol (normalizeUrl url)) ++ "/").data =
          (strToLower (stripProtocol (normalizeUrl url))).data ++ ['/'] := rfl
      rw [hdata, List.mem_append] at hcc
      rcases hcc with h | h
      · exact strToLower_no_upper _ c h
      · rw [List.mem_singleton] at h
        subst h
        rfl
    · have hdata : (strToLower (stripProtocol (normalizeUrl url)) ++ "/").data =
          (strToLower (stripProtocol (normalizeUrl url))).data ++ ['/'] := rfl
      rw [hdata]
      exact List.mem_append_right _ (List.mem_singleton.mpr rfl)

/-- C9 witness at a concrete URL and concrete library helpers. -/
theorem normalizeRelayUrl_shape_witness :
    ∃ rest : String,
      normalizeRelayUrl id id false "WSS://Relay.Example.COM" = "wss://" ++ rest ∧
      (∀ c ∈ rest.data, isAsciiUpper c = false) ∧
      '/' ∈ rest.data :=
  normalizeRelayUrl_shape id id "WSS://Relay.Example.COM"

end Welshman
